import Mathlib

/-!
Verification of the conditional-request and byte-range engine of the
fileserver package (files cond.go, fileserver.go, helpers.go).  Go strings
are modelled as lists of characters, one character per byte; Go int64
values are modelled as Int, with the 64-bit bounds made explicit where the
code checks them (strconv.ParseInt).
-/

/-- ASCII whitespace recognised by textproto.TrimString: space, tab,
newline, carriage return. -/
def isWS (c : Char) : Bool :=
  c == ' ' || c == '\t' || c == '\n' || c == '\r'

/-- Model of textproto.TrimString: remove leading and trailing ASCII
whitespace. -/
def trimAscii (l : List Char) : List Char :=
  ((l.dropWhile isWS).reverse.dropWhile isWS).reverse

/-- The weak-marker bytes of an entity tag. -/
def wSlash : List Char := ['W', '/']

/-- Valid interior byte of an entity tag: the first case of the switch in
scanETag (helpers.go): 0x21, 0x23 through 0x7E, or at least 0x80. -/
def validEtagChar (c : Char) : Bool :=
  decide (c.toNat = 0x21 ∨ (0x23 ≤ c.toNat ∧ c.toNat ≤ 0x7E) ∨ 0x80 ≤ c.toNat)

/-- Index of the closing double quote in the bytes after the opening quote,
scanning as the loop of scanETag does: valid characters are skipped, a
double quote ends the tag, anything else is malformed. -/
def findClose : List Char → Option Nat
  | [] => none
  | c :: rest =>
    if validEtagChar c then (findClose rest).map Nat.succ
    else if c == '"' then some 0
    else none

/-- Model of scanETag (helpers.go): extract one entity tag from the head of
s, returning the tag and the remainder, or a pair of empty strings if no
well-formed tag heads the (trimmed) input. -/
def scanETag (s : List Char) : List Char × List Char :=
  let t := trimAscii s
  let start := if wSlash.isPrefixOf t then 2 else 0
  if (t.drop start).length < 2 ∨ (t.drop start).head? ≠ some '"' then ([], [])
  else
    match findClose (t.drop (start + 1)) with
    | some j => (t.take (start + 1 + j + 1), t.drop (start + 1 + j + 1))
    | none => ([], [])

/-- Model of etagStrongMatch (helpers.go). -/
def etagStrongMatch (a b : List Char) : Bool :=
  a == b && !a.isEmpty && a.head? == some '"'

/-- Model of strings.TrimPrefix applied to the weak marker. -/
def stripWeak (a : List Char) : List Char :=
  if wSlash.isPrefixOf a then a.drop 2 else a

/-- Model of etagWeakMatch (helpers.go). -/
def etagWeakMatch (a b : List Char) : Bool :=
  stripWeak a == stripWeak b

/-- Tri-state outcome of one conditional header check (cond.go). -/
inductive condResult
  | condNone
  | condTrue
  | condFalse
deriving DecidableEq

/-- Decimal digit byte. -/
def isDigitChar (c : Char) : Bool :=
  decide (48 ≤ c.toNat ∧ c.toNat ≤ 57)

/-- Value of a list of decimal digit bytes. -/
def digitsVal (l : List Char) : Nat :=
  l.foldl (fun a c => a * 10 + (c.toNat - 48)) 0

/-- Largest int64, 2 to the 63rd minus one. -/
def int64Max : Nat := 9223372036854775807

/-- Absolute value of the smallest int64, 2 to the 63rd. -/
def int64MinAbs : Nat := 9223372036854775808

/-- Model of strconv.ParseInt(s, 10, 64): an optional sign followed by at
least one decimal digit, rejected when the value does not fit in a signed
64-bit integer. -/
def goParseInt64 (s : List Char) : Option Int :=
  match s with
  | [] => none
  | c :: rest =>
    let neg := c == '-'
    let digits := if c == '+' || c == '-' then rest else s
    if digits.isEmpty || !(digits.all isDigitChar) then none
    else
      let un := digitsVal digits
      if neg then
        if un ≤ int64MinAbs then some (-(Int.ofNat un)) else none
      else
        if un ≤ int64Max then some (Int.ofNat un) else none

/-- A byte range as in helpers.go: start offset and length. -/
structure httpRange where
  start : Int
  length : Int
deriving DecidableEq

/-- Model of strings.Cut(s, a dash): split at the first dash, reporting
whether one was found. -/
def cutDash : List Char → Option (List Char × List Char)
  | [] => none
  | c :: rest =>
    if c == '-' then some ([], rest)
    else
      match cutDash rest with
      | none => none
      | some (b, a) => some (c :: b, a)

/-- The two error values parseRange can produce: a generic invalid-range
error, or errNoOverlap (fileserver.go). -/
inductive RangeErr
  | invalid
  | noOverlap
deriving DecidableEq

/-- The loop body of parseRange (helpers.go), one iteration per
comma-separated token, carrying the accepted ranges and the noOverlap
flag. -/
def parseRangeLoop (size : Int) :
    List (List Char) → List httpRange → Bool → Except RangeErr (List httpRange × Bool)
  | [], acc, noOverlap => .ok (acc, noOverlap)
  | tok :: rest, acc, noOverlap =>
    let ra := trimAscii tok
    if ra.isEmpty then parseRangeLoop size rest acc noOverlap
    else
      match cutDash ra with
      | none => .error .invalid
      | some (s0, e0) =>
        let startS := trimAscii s0
        let endS := trimAscii e0
        if startS.isEmpty then
          if endS.isEmpty || endS.head? == some '-' then .error .invalid
          else
            match goParseInt64 endS with
            | none => .error .invalid
            | some i =>
              if i < 0 then .error .invalid
              else
                let i2 := if i > size then size else i
                let st := size - i2
                parseRangeLoop size rest (acc ++ [⟨st, size - st⟩]) noOverlap
        else
          match goParseInt64 startS with
          | none => .error .invalid
          | some i =>
            if i < 0 then .error .invalid
            else if size ≤ i then parseRangeLoop size rest acc true
            else if endS.isEmpty then
              parseRangeLoop size rest (acc ++ [⟨i, size - i⟩]) noOverlap
            else
              match goParseInt64 endS with
              | none => .error .invalid
              | some j =>
                if i > j then .error .invalid
                else
                  let j2 := if size ≤ j then size - 1 else j
                  parseRangeLoop size rest (acc ++ [⟨i, j2 - i + 1⟩]) noOverlap

/-- The bytes of the range-unit marker that a Range header must start
with. -/
def bytesEq : List Char := ['b', 'y', 't', 'e', 's', '=']

/-- Model of parseRange (helpers.go): empty header means no ranges; a
missing range-unit marker or a malformed entry is invalid; when every
entry was skipped for lack of overlap the header is unsatisfiable. -/
def parseRange (s : List Char) (size : Int) : Except RangeErr (List httpRange) :=
  if s.isEmpty then .ok []
  else if !(bytesEq.isPrefixOf s) then .error .invalid
  else
    match parseRangeLoop size ((s.drop 6).splitOn ',') [] false with
    | .error e => .error e
    | .ok (ranges, noOverlap) =>
      if noOverlap && ranges.isEmpty then .error .noOverlap else .ok ranges

/-- Model of sumRangesSize (helpers.go). -/
def sumRangesSize (ranges : List httpRange) : Int :=
  ranges.foldl (fun acc r => acc + r.length) 0

/-- The invariant every accepted byte range satisfies against the resource
size: non-negative start and length, end within the resource, and a start
strictly inside the resource whenever any byte is requested. -/
def rangeInv (size : Int) (r : httpRange) : Prop :=
  0 ≤ r.start ∧ 0 ≤ r.length ∧ r.start + r.length ≤ size ∧
    (0 < r.length → r.start < size)

deriving instance DecidableEq for Except


/-- Go time.Time, reduced to whole seconds since the Go zero date plus a
nanosecond component; all comparisons the code performs factor through
these two fields. -/
structure GoTime where
  sec : Int
  nsec : Int
deriving DecidableEq

/-- Seconds between the Go zero date (January 1, year 1) and the Unix
epoch. -/
def unixToInternal : Int := 62135596800

/-- Model of time.Time.IsZero. -/
def GoTime.isZeroB (t : GoTime) : Bool :=
  t.sec == 0 && t.nsec == 0

/-- The instant time.Unix(0, 0). -/
def unixEpochTime : GoTime := ⟨unixToInternal, 0⟩

/-- Model of isZeroTime (helpers.go): the zero date or the Unix epoch. -/
def isZeroTime (t : GoTime) : Bool :=
  t.isZeroB || decide (t = unixEpochTime)

/-- Model of Truncate(time.Second) as applied to the non-negative
modification times the code compares. -/
def GoTime.truncSec (t : GoTime) : GoTime := ⟨t.sec, 0⟩

/-- Model of time.Time.Compare. -/
def GoTime.compareT (a b : GoTime) : Int :=
  if a.sec < b.sec then -1
  else if b.sec < a.sec then 1
  else if a.nsec < b.nsec then -1
  else if b.nsec < a.nsec then 1
  else 0

/-- Model of time.Time.Unix, in whole seconds. -/
def GoTime.unixSec (t : GoTime) : Int := t.sec - unixToInternal

/-- Method strings the code compares against. -/
def mGET : List Char := ['G', 'E', 'T']

/-- The HEAD method string. -/
def mHEAD : List Char := ['H', 'E', 'A', 'D']

/-- The POST method string, an unsafe method for the purposes of the
conditional checks. -/
def mPOST : List Char := ['P', 'O', 'S', 'T']

/-- Model of checkIfModifiedSince (cond.go).  The header value parse
(http.ParseTime, a function of the standard library, not of this
repository) is passed in as pt. -/
def checkIfModifiedSince (pt : List Char → Option GoTime)
    (method ims : List Char) (modtime : GoTime) : condResult :=
  if method ≠ mGET ∧ method ≠ mHEAD then .condNone
  else if ims.isEmpty || isZeroTime modtime then .condNone
  else
    match pt ims with
    | none => .condNone
    | some t =>
      if modtime.truncSec.compareT t ≤ 0 then .condFalse else .condTrue

/-- Model of checkIfUnmodifiedSince (cond.go). -/
def checkIfUnmodifiedSince (pt : List Char → Option GoTime)
    (ius : List Char) (modtime : GoTime) : condResult :=
  if ius.isEmpty || isZeroTime modtime then .condNone
  else
    match pt ius with
    | none => .condNone
    | some t =>
      if modtime.truncSec.compareT t ≤ 0 then .condTrue else .condFalse

/-- The scanning loop of checkIfMatch (cond.go).  Each iteration strictly
shortens the remaining header bytes, so the fuel argument, chosen one
larger than the header length, is never exhausted. -/
def imLoop (stored : List Char) : Nat → List Char → condResult
  | 0, _ => .condFalse
  | fuel + 1, buf =>
    match trimAscii buf with
    | [] => .condFalse
    | c :: rest =>
      if c == ',' then imLoop stored fuel rest
      else if c == '*' then .condTrue
      else
        match scanETag (c :: rest) with
        | (etag, remain) =>
          if etag.isEmpty then .condFalse
          else if etagStrongMatch etag stored then .condTrue
          else imLoop stored fuel remain

/-- Model of checkIfMatch (cond.go); stored is the Etag response header
already set by the caller. -/
def checkIfMatch (im stored : List Char) : condResult :=
  if im.isEmpty then .condNone else imLoop stored (im.length + 1) im

/-- The scanning loop of checkIfNoneMatch (cond.go).  Note that in this
repository every exit of the loop yields condFalse: a star, a weak match,
a malformed tag, and the exhaustion of the list all return condFalse. -/
def inmLoop (stored : List Char) : Nat → List Char → condResult
  | 0, _ => .condFalse
  | fuel + 1, buf =>
    match trimAscii buf with
    | [] => .condFalse
    | c :: rest =>
      if c == ',' then inmLoop stored fuel rest
      else if c == '*' then .condFalse
      else
        match scanETag (c :: rest) with
        | (etag, remain) =>
          if etag.isEmpty then .condFalse
          else if etagWeakMatch etag stored then .condFalse
          else inmLoop stored fuel remain

/-- Model of checkIfNoneMatch (cond.go). -/
def checkIfNoneMatch (inm stored : List Char) : condResult :=
  if inm.isEmpty then .condNone else inmLoop stored (inm.length + 1) inm

/-- Model of checkIfRange (cond.go). -/
def checkIfRange (pt : List Char → Option GoTime)
    (method ir stored : List Char) (modtime : GoTime) : condResult :=
  if method ≠ mGET ∧ method ≠ mHEAD then .condNone
  else if ir.isEmpty then .condNone
  else
    let etag := (scanETag ir).1
    if !etag.isEmpty then
      if etagStrongMatch etag stored then .condTrue else .condFalse
    else if modtime.isZeroB then .condFalse
    else
      match pt ir with
      | none => .condFalse
      | some t =>
        if t.unixSec == modtime.unixSec then .condTrue else .condFalse

/-- The conditional request headers, each the result of
r.Header.Get on the corresponding name (empty when absent), together with
the request method. -/
structure Req where
  method : List Char
  ifMatch : List Char
  ifUnmodifiedSince : List Char
  ifNoneMatch : List Char
  ifModifiedSince : List Char
  ifRange : List Char
  range : List Char
deriving DecidableEq

/-- Result of checkPreconditions (fileserver.go): a 412 write, a 304 write,
or proceeding with the surviving Range header. -/
inductive PreconResult
  | preconditionFailed
  | notModified
  | proceed (rangeHeader : List Char)
deriving DecidableEq

/-- Model of checkPreconditions (fileserver.go); stored is the Etag
response header already set by the caller. -/
def checkPreconditions (pt : List Char → Option GoTime) (r : Req)
    (stored : List Char) (modtime : GoTime) : PreconResult :=
  let ch0 := checkIfMatch r.ifMatch stored
  let ch := if ch0 = .condNone then checkIfUnmodifiedSince pt r.ifUnmodifiedSince modtime
    else ch0
  if ch = .condFalse then .preconditionFailed
  else
    let rangeStep : PreconResult :=
      if r.range ≠ [] ∧ checkIfRange pt r.method r.ifRange stored modtime = .condFalse then
        .proceed []
      else .proceed r.range
    match checkIfNoneMatch r.ifNoneMatch stored with
    | .condFalse =>
      if r.method = mGET ∨ r.method = mHEAD then .notModified else rangeStep
    | .condNone =>
      if checkIfModifiedSince pt r.method r.ifModifiedSince modtime = .condFalse then
        .notModified
      else rangeStep
    | .condTrue => rangeStep

/-- The request with its Range header removed. -/
def reqDropRange (r : Req) : Req :=
  ⟨r.method, r.ifMatch, r.ifUnmodifiedSince, r.ifNoneMatch, r.ifModifiedSince,
    r.ifRange, []⟩

/-- Carriage return, line feed. -/
def crlf : List Char := ['\r', '\n']

/-- Two dashes, the boundary marker of a multipart body. -/
def dash2 : List Char := ['-', '-']

/-- Decimal rendering of an integer, as the percent-d verb of fmt
produces it. -/
def intChars (i : Int) : List Char := (toString i).data

/-- Model of httpRange.contentRange (helpers.go). -/
def contentRangeStr (r : httpRange) (size : Int) : List Char :=
  ("bytes ".data) ++ intChars r.start ++ ['-'] ++ intChars (r.start + r.length - 1)
    ++ ['/'] ++ intChars size

/-- The serialized MIME header of one part, as multipart.Writer.CreatePart
emits the header returned by httpRange.mimeHeader (helpers.go): keys in
sorted order, Content-Range before Content-Type, each line ending in
carriage return and line feed. -/
def mimeHeaderBytes (r : httpRange) (ctype : List Char) (size : Int) : List Char :=
  ("Content-Range: ".data) ++ contentRangeStr r size ++ crlf
    ++ ("Content-Type: ".data) ++ ctype ++ crlf

/-- The bytes multipart.Writer.CreatePart writes before a part body: the
dash-boundary line (preceded by a blank line for every part after the
first), the serialized header, and a blank line. -/
def partHeaderBytes (boundary : List Char) (first : Bool) (hdr : List Char) : List Char :=
  (if first then [] else crlf) ++ dash2 ++ boundary ++ crlf ++ hdr ++ crlf

/-- The bytes multipart.Writer.Close writes: the closing boundary line. -/
def closeDelim (boundary : List Char) : List Char :=
  crlf ++ dash2 ++ boundary ++ dash2 ++ crlf

/-- The bytes the producing task of serveContent (fileserver.go) writes into
the pipe for the given ranges: for each range a part header followed by the
bytes of that slice of the content (seek to start, copy length bytes), and
finally the closing boundary. -/
def multipartStream (boundary ctype : List Char) (size : Int) (content : List Char) :
    List httpRange → Bool → List Char
  | [], _ => closeDelim boundary
  | r :: rs, first =>
    partHeaderBytes boundary first (mimeHeaderBytes r ctype size)
      ++ (content.drop r.start.toNat).take r.length.toNat
      ++ multipartStream boundary ctype size content rs false

/-- The whole multipart body produced by the streaming writer. -/
def multipartBody (boundary ctype : List Char) (size : Int) (content : List Char)
    (ranges : List httpRange) : List Char :=
  multipartStream boundary ctype size content ranges true

/-- The byte count the counting writer of rangesMIMESize accumulates: the
encoded size of every part header plus the closing boundary, no bodies. -/
def rangesMIMESizeLoop (boundary ctype : List Char) (size : Int) :
    List httpRange → Bool → Int
  | [], _ => ((closeDelim boundary).length : Int)
  | r :: rs, first =>
    ((partHeaderBytes boundary first (mimeHeaderBytes r ctype size)).length : Int)
      + rangesMIMESizeLoop boundary ctype size rs false

/-- Model of rangesMIMESize (helpers.go): the dry-run encoded size of all
part headers and boundaries plus the summed range lengths.  The fresh
boundary the writer would generate is passed in as boundary. -/
def rangesMIMESize (ranges : List httpRange) (ctype : List Char) (contentSize : Int)
    (boundary : List Char) : Int :=
  rangesMIMESizeLoop boundary ctype contentSize ranges true + sumRangesSize ranges

/-- The delivery decision serveContent (fileserver.go) reaches after the
preconditions, from the size check through the range dispatch: the reached
branch together with the status code, the transmitted body size, and the
Content-Range header value where one is set. -/
inductive ServeOutcome
  | errInternal
  | errMalformedRange (status : Nat)
  | errUnsatisfiable (contentRangeHeader : List Char) (status : Nat)
  | full (sendSize : Int) (status : Nat)
  | singlePart (r : httpRange) (contentRangeHeader : List Char) (sendSize : Int) (status : Nat)
  | multiPart (ranges : List httpRange) (sendSize : Int) (status : Nat)
deriving DecidableEq

/-- Model of the range-resolution part of serveContent (fileserver.go):
negative size is an internal error; a parse error is either unsatisfiable
(416 with a Content-Range of the form bytes star slash size, except that a
zero size degrades to a full body) or malformed (416 through the error
callback); ranges whose summed length exceeds the size are dropped; then
zero, one, or several ranges select full, single-part, or multipart
delivery. -/
def resolveRanges (rangeReq : List Char) (size : Int) (ctype boundary : List Char) :
    ServeOutcome :=
  if size < 0 then .errInternal
  else
    match parseRange rangeReq size with
    | .error .invalid => .errMalformedRange 416
    | .error .noOverlap =>
      if size = 0 then .full size 200
      else .errUnsatisfiable (("bytes */".data) ++ intChars size) 416
    | .ok rs =>
      let ranges := if sumRangesSize rs > size then [] else rs
      match ranges with
      | [] => .full size 200
      | [r] => .singlePart r (contentRangeStr r size) r.length 206
      | _ => .multiPart ranges (rangesMIMESize ranges ctype size boundary) 206

/-- Response headers as Go stores them: a finite map from canonical header
names to lists of values, here an association list. -/
abbrev Header := List (String × List String)

/-- Model of the built-in delete on the header map. -/
def hDelete (h : Header) (k : String) : Header :=
  h.filter (fun p => !(p.1 == k))

/-- Model of http.Header.Get for a canonical key: the first value, or the
empty string when the key is missing or has no values. -/
def hGetFirst (h : Header) (k : String) : String :=
  match h.find? (fun p => p.1 == k) with
  | some p =>
    match p.2 with
    | v :: _ => v
    | [] => ""
  | none => ""

/-- All entries of the header map under one key. -/
def lookupVals (h : Header) (k : String) : Header :=
  h.filter (fun p => p.1 == k)

/-- Headers, status code and body bytes of a finished response write. -/
structure RespState where
  headers : Header
  status : Nat
  body : List Char
deriving DecidableEq

/-- The Content-Type header name. -/
def ctKey : String := "Content-Type"

/-- The Content-Length header name. -/
def clKey : String := "Content-Length"

/-- The Content-Encoding header name. -/
def ceKey : String := "Content-Encoding"

/-- The Last-Modified header name. -/
def lmKey : String := "Last-Modified"

/-- The canonical form of the ETag header name. -/
def etagKey : String := "Etag"

/-- Model of writeNotModified (helpers.go): delete Content-Type,
Content-Length and Content-Encoding, delete Last-Modified when the Etag
header has a non-empty value, then write status 304 and no body. -/
def writeNotModified (h : Header) : RespState :=
  let h1 := hDelete h ctKey
  let h2 := hDelete h1 clKey
  let h3 := hDelete h2 ceKey
  let h4 := if hGetFirst h3 etagKey ≠ "" then hDelete h3 lmKey else h3
  ⟨h4, 304, []⟩

/-- A header state whose Etag entry holds the empty string next to a
Last-Modified entry. -/
def emptyEtagHeaders : Header := [(etagKey, [""]), (lmKey, ["x"])]

/-- The name of an unrelated response header used to observe the frame
condition. -/
def xOtherKey : String := "X-Other"

/-- A header state with a non-empty Etag, a Last-Modified entry and an
unrelated header. -/
def sampleHeaders : Header :=
  [(etagKey, ["\"v\""]), (lmKey, ["x"]), (xOtherKey, ["y"])]

theorem trimAscii_length_le (l : List Char) : (trimAscii l).length ≤ l.length := by
  unfold trimAscii
  simp only [List.length_reverse]
  calc ((l.dropWhile isWS).reverse.dropWhile isWS).length
      ≤ (l.dropWhile isWS).reverse.length := (List.dropWhile_sublist _).length_le
    _ = (l.dropWhile isWS).length := by simp
    _ ≤ l.length := (List.dropWhile_sublist _).length_le

theorem findClose_some {l : List Char} {j : Nat} (h : findClose l = some j) :
    l[j]? = some '"' := by
  induction l generalizing j with
  | nil => simp [findClose] at h
  | cons c rest ih =>
    unfold findClose at h
    by_cases hv : validEtagChar c = true
    · rw [if_pos hv] at h
      cases hf : findClose rest with
      | none => rw [hf] at h; simp at h
      | some j2 =>
        rw [hf] at h
        simp only [Option.map_some'] at h
        cases h
        simpa using ih hf
    · rw [if_neg hv] at h
      by_cases hq : (c == '"') = true
      · rw [if_pos hq] at h
        cases h
        simpa using eq_of_beq hq
      · rw [if_neg hq] at h
        simp at h

/-- C10: the spec of scanETag on success and on failure: a non-empty tag
together with the remainder reassembles the whitespace-trimmed input, the
tag closes with a double quote and opens with a double quote or with the
weak marker followed by a double quote; and whenever no well-formed tag
heads the input both results are empty. -/
theorem scanETag_spec (s : List Char) :
    ((scanETag s).1 ≠ [] →
      (scanETag s).1 ++ (scanETag s).2 = trimAscii s ∧
      (scanETag s).1.getLast? = some '"' ∧
      (['"'] <+: (scanETag s).1 ∨ ['W', '/', '"'] <+: (scanETag s).1)) ∧
    ((scanETag s).1 = [] → (scanETag s).2 = []) := by
  cases hsc : scanETag s with
  | mk tag rem =>
    simp only []
    unfold scanETag at hsc
    simp only [] at hsc
    by_cases hw : wSlash.isPrefixOf (trimAscii s) = true
    · rw [if_pos hw] at hsc
      by_cases hc : ((trimAscii s).drop 2).length < 2 ∨ ((trimAscii s).drop 2).head? ≠ some '"'
      · rw [if_pos hc] at hsc
        injection hsc with h1 h2
        subst h1
        subst h2
        exact ⟨fun h => absurd rfl h, fun _ => rfl⟩
      · rw [if_neg hc] at hsc
        push_neg at hc
        obtain ⟨u, hu⟩ := List.isPrefixOf_iff_prefix.mp hw
        cases hf : findClose ((trimAscii s).drop (2 + 1)) with
        | none =>
          rw [hf] at hsc
          injection hsc with h1 h2
          subst h1
          subst h2
          exact ⟨fun h => absurd rfl h, fun _ => rfl⟩
        | some j =>
          rw [hf] at hsc
          injection hsc with h1 h2
          subst h1
          subst h2
          have hquote : (trimAscii s)[2 + 1 + j]? = some '"' := by
            have := findClose_some hf
            rwa [List.getElem?_drop] at this
          have hd2 : (trimAscii s).drop 2 = u := by
            rw [← hu]
            exact List.drop_left wSlash u
          obtain ⟨u1, hu1⟩ : ∃ u1, u = '"' :: u1 := by
            cases hcu : u with
            | nil => rw [hd2, hcu] at hc; simp at hc
            | cons a u1 =>
              rw [hd2, hcu] at hc
              simp only [List.head?_cons, Option.some.injEq] at hc
              exact ⟨u1, by rw [hc.2]⟩
          have ht : trimAscii s = ['W', '/', '"'] ++ u1 := by
            rw [← hu, hu1]
            rfl
          have htake : (trimAscii s).take (2 + 1 + j + 1) = ['W', '/', '"'] ++ u1.take (j + 1) := by
            rw [ht, List.take_append_eq_append_take]
            congr 1
            · exact List.take_of_length_le (by simp; omega)
            · congr 1
              simp
              omega
          refine ⟨fun _ => ⟨List.take_append_drop _ _, ?_, Or.inr ⟨u1.take (j + 1), htake.symm⟩⟩,
            fun h0 => ?_⟩
          · rw [List.take_succ, hquote]
            simp
          · rw [htake] at h0
            simp at h0
    · rw [if_neg hw] at hsc
      by_cases hc : ((trimAscii s).drop 0).length < 2 ∨ ((trimAscii s).drop 0).head? ≠ some '"'
      · rw [if_pos hc] at hsc
        injection hsc with h1 h2
        subst h1
        subst h2
        exact ⟨fun h => absurd rfl h, fun _ => rfl⟩
      · rw [if_neg hc] at hsc
        push_neg at hc
        cases hf : findClose ((trimAscii s).drop (0 + 1)) with
        | none =>
          rw [hf] at hsc
          injection hsc with h1 h2
          subst h1
          subst h2
          exact ⟨fun h => absurd rfl h, fun _ => rfl⟩
        | some j =>
          rw [hf] at hsc
          injection hsc with h1 h2
          subst h1
          subst h2
          have hquote : (trimAscii s)[0 + 1 + j]? = some '"' := by
            have := findClose_some hf
            rwa [List.getElem?_drop] at this
          obtain ⟨u1, hu1⟩ : ∃ u1, trimAscii s = '"' :: u1 := by
            cases hcu : trimAscii s with
            | nil => rw [hcu] at hc; simp at hc
            | cons a u1 =>
              rw [hcu] at hc
              simp only [List.drop_zero, List.head?_cons, Option.some.injEq] at hc
              exact ⟨u1, by rw [hc.2]⟩
          have htake : (trimAscii s).take (0 + 1 + j + 1) = ['"'] ++ u1.take (j + 1) := by
            rw [hu1]
            rw [show ('"' : Char) :: u1 = ['"'] ++ u1 from rfl, List.take_append_eq_append_take]
            congr 1
            · exact List.take_of_length_le (by simp)
            · congr 1
              simp
              omega
          refine ⟨fun _ => ⟨List.take_append_drop _ _, ?_, Or.inl ⟨u1.take (j + 1), htake.symm⟩⟩,
            fun h0 => ?_⟩
          · rw [List.take_succ, hquote]
            simp
          · rw [htake] at h0
            simp at h0

/-- Witness for the scanETag spec at a concrete weak tag followed by
trailing bytes. -/
theorem scanETag_spec_witness :
    (scanETag ("W/\"x\"abc".data)).1 ++ (scanETag ("W/\"x\"abc".data)).2
        = trimAscii ("W/\"x\"abc".data) ∧
      (scanETag ("W/\"x\"abc".data)).1.getLast? = some '"' ∧
      (['"'] <+: (scanETag ("W/\"x\"abc".data)).1 ∨
        ['W', '/', '"'] <+: (scanETag ("W/\"x\"abc".data)).1) :=
  (scanETag_spec ("W/\"x\"abc".data)).1 (by decide)

/-- In this repository the scanning loop of checkIfNoneMatch yields
condFalse on every path, whatever the header and the stored tag. -/
theorem inmLoop_eq_condFalse (stored : List Char) (fuel : Nat) :
    ∀ buf, inmLoop stored fuel buf = .condFalse := by
  induction fuel with
  | zero => intro buf; rfl
  | succ n ih =>
    intro buf
    unfold inmLoop
    cases htrim : trimAscii buf with
    | nil => rfl
    | cons c rest =>
      simp only []
      by_cases hcomma : (c == ',') = true
      · rw [if_pos hcomma]
        exact ih rest
      · rw [if_neg hcomma]
        by_cases hstar : (c == '*') = true
        · rw [if_pos hstar]
        · rw [if_neg hstar]
          cases hs : scanETag (c :: rest) with
          | mk etag remain =>
            simp only []
            by_cases hemp : etag.isEmpty = true
            · rw [if_pos hemp]
            · rw [if_neg hemp]
              by_cases hwm : etagWeakMatch etag stored = true
              · rw [if_pos hwm]
              · rw [if_neg hwm]
                exact ih remain

/-- A non-empty If-None-Match header always evaluates to condFalse in this
repository. -/
theorem checkIfNoneMatch_of_ne_nil (inm stored : List Char) (h : inm ≠ []) :
    checkIfNoneMatch inm stored = .condFalse := by
  unfold checkIfNoneMatch
  rw [if_neg]
  · exact inmLoop_eq_condFalse stored (inm.length + 1) inm
  · simp [List.isEmpty_iff, h]

/-- C1: on a GET request whose If-None-Match header is the single
well-formed strong tag quote-a-quote, while the stored ETag is
quote-b-quote (so no entry weak-matches it and none is a star), the code
nevertheless evaluates If-None-Match to condFalse and short-circuits the
request to NotModified (304), where the claim requires a Satisfied outcome
and a Full disposition: the final return of the scan loop in
checkIfNoneMatch (cond.go) is condFalse where upstream returns condTrue. -/
theorem c1_ifNoneMatch_nonmatching_blocks :
    scanETag ("\"a\"".data) = (("\"a\"".data), []) ∧
    etagWeakMatch ("\"a\"".data) ("\"b\"".data) = false ∧
    checkIfNoneMatch ("\"a\"".data) ("\"b\"".data) = .condFalse ∧
    checkPreconditions (fun _ => none)
        ⟨mGET, [], [], ("\"a\"".data), [], [], []⟩ ("\"b\"".data) ⟨0, 0⟩
      = .notModified := by
  exact ⟨by decide, by decide, by decide, by decide⟩

/-- C6: whenever the If-None-Match header contains the stored strong ETag
anywhere in it, a GET or HEAD request is answered NotModified, while a POST
carrying the same header proceeds to delivery with no Range header. -/
theorem c6_notModified_on_match (pt : List Char → Option GoTime) (modtime : GoTime)
    (etag pre post : List Char) (hne : etag ≠ []) (hq : etag.head? = some '"') :
    checkPreconditions pt ⟨mGET, [], [], pre ++ etag ++ post, [], [], []⟩ etag modtime
        = .notModified ∧
    checkPreconditions pt ⟨mHEAD, [], [], pre ++ etag ++ post, [], [], []⟩ etag modtime
        = .notModified ∧
    checkPreconditions pt ⟨mPOST, [], [], pre ++ etag ++ post, [], [], []⟩ etag modtime
        = .proceed [] := by
  have hinm : pre ++ etag ++ post ≠ [] := by
    simp [hne]
  have hnm := checkIfNoneMatch_of_ne_nil (pre ++ etag ++ post) etag hinm
  have hnm2 : checkIfNoneMatch (pre ++ (etag ++ post)) etag = .condFalse := by
    rw [← List.append_assoc]
    exact hnm
  have hpg : mPOST ≠ mGET := by decide
  have hph : mPOST ≠ mHEAD := by decide
  refine ⟨?_, ?_, ?_⟩
  all_goals
    unfold checkPreconditions
    simp [checkIfMatch, checkIfUnmodifiedSince, hnm, hnm2, hpg, hph]

/-- Witness for C6 at a concrete one-element list holding the stored
tag. -/
theorem c6_notModified_on_match_witness :
    checkPreconditions (fun _ => none)
        ⟨mGET, [], [], [] ++ ("\"x\"".data) ++ [], [], [], []⟩ ("\"x\"".data) ⟨0, 0⟩
        = .notModified ∧
    checkPreconditions (fun _ => none)
        ⟨mHEAD, [], [], [] ++ ("\"x\"".data) ++ [], [], [], []⟩ ("\"x\"".data) ⟨0, 0⟩
        = .notModified ∧
    checkPreconditions (fun _ => none)
        ⟨mPOST, [], [], [] ++ ("\"x\"".data) ++ [], [], [], []⟩ ("\"x\"".data) ⟨0, 0⟩
        = .proceed [] :=
  c6_notModified_on_match (fun _ => none) ⟨0, 0⟩ ("\"x\"".data) [] [] (by decide) (by decide)

/-- Counterexample to C2 as stated: a POST request carrying a Range header
and an If-Range header in entity-tag form that does not strong-match the
stored ETag keeps its Range header, because checkIfRange returns condNone
for every method other than GET and HEAD. -/
theorem c2_counterexample :
    (scanETag ("\"x\"".data)).1 ≠ [] ∧
    etagStrongMatch (scanETag ("\"x\"".data)).1 ("\"y\"".data) = false ∧
    checkPreconditions (fun _ => none)
        ⟨mPOST, [], [], [], [], ("\"x\"".data), ("bytes=0-1".data)⟩
        ("\"y\"".data) ⟨0, 0⟩
      = .proceed ("bytes=0-1".data) := by
  exact ⟨by decide, by decide, by decide⟩

/-- C2 as amended: on a GET or HEAD request with a Range header, an If-Range
header that fails to match (a scanned entity tag without a strong match, or
no entity tag together with a zero modification time or with no parse of
the header agreeing with the modification time to the second) makes
checkIfRange yield condFalse, and the whole precondition check behaves
exactly as if the Range header were absent. -/
theorem c2_ifRange_discard (pt : List Char → Option GoTime) (r : Req)
    (stored : List Char) (modtime : GoTime)
    (hm : r.method = mGET ∨ r.method = mHEAD)
    (hir : r.ifRange ≠ [])
    (hfail : ((scanETag r.ifRange).1 ≠ [] ∧
        etagStrongMatch (scanETag r.ifRange).1 stored = false)
      ∨ ((scanETag r.ifRange).1 = [] ∧ (modtime.isZeroB = true
          ∨ ∀ t, pt r.ifRange = some t → t.unixSec ≠ modtime.unixSec))) :
    checkIfRange pt r.method r.ifRange stored modtime = .condFalse ∧
    checkPreconditions pt r stored modtime
      = checkPreconditions pt (reqDropRange r) stored modtime := by
  have hcf : checkIfRange pt r.method r.ifRange stored modtime = .condFalse := by
    unfold checkIfRange
    rw [if_neg (by rcases hm with h | h <;> simp [h])]
    rw [if_neg (by simp [List.isEmpty_iff, hir])]
    rcases hfail with ⟨hne, hsm⟩ | ⟨hemp, hdate⟩
    · rw [if_pos (by simp [List.isEmpty_iff, hne]), if_neg (by simp [hsm])]
    · rw [if_neg (by simp [hemp])]
      rcases hdate with hz | hclock
      · rw [if_pos hz]
      · by_cases hz : modtime.isZeroB = true
        · rw [if_pos hz]
        · rw [if_neg hz]
          cases hp : pt r.ifRange with
          | none => rfl
          | some t =>
            have := hclock t hp
            simp [this]
  refine ⟨hcf, ?_⟩
  unfold checkPreconditions
  simp only [reqDropRange]
  by_cases hrg : r.range = []
  · simp [hrg]
  · simp [hrg, hcf]

/-- Witness for the amended C2 on a GET request with a non-matching
entity-tag If-Range. -/
theorem c2_ifRange_discard_witness :
    checkIfRange (fun _ => none) mGET ("\"x\"".data) ("\"y\"".data) ⟨0, 0⟩
        = .condFalse ∧
    checkPreconditions (fun _ => none)
        ⟨mGET, [], [], [], [], ("\"x\"".data), ("bytes=0-1".data)⟩
        ("\"y\"".data) ⟨0, 0⟩
      = checkPreconditions (fun _ => none)
        (reqDropRange ⟨mGET, [], [], [], [], ("\"x\"".data), ("bytes=0-1".data)⟩)
        ("\"y\"".data) ⟨0, 0⟩ :=
  c2_ifRange_discard (fun _ => none)
    ⟨mGET, [], [], [], [], ("\"x\"".data), ("bytes=0-1".data)⟩
    ("\"y\"".data) ⟨0, 0⟩ (Or.inl rfl) (by decide) (Or.inl ⟨by decide, by decide⟩)

/-- Counterexample to C3 as stated: the non-empty Range header consisting of
the range-unit marker alone accepts zero ranges, records no overlap miss,
and parses to the empty range list with no error, not to the invalid-range
(Malformed) outcome, so it is served as a full body. -/
theorem c3_counterexample :
    parseRange ("bytes=".data) 10 = .ok [] ∧
    parseRange ("bytes=".data) 10 ≠ .error .invalid ∧
    resolveRanges ("bytes=".data) 10 [] [] = .full 10 200 := by
  exact ⟨by decide, by decide, by decide⟩

/-- A run of the parseRange loop over tokens that all trim to nothing skips
every one of them and returns the accumulator unchanged. -/
theorem parseRangeLoop_all_empty (size : Int) :
    ∀ (toks : List (List Char)) (acc : List httpRange) (no : Bool),
      (∀ tok ∈ toks, trimAscii tok = []) →
      parseRangeLoop size toks acc no = .ok (acc, no) := by
  intro toks
  induction toks with
  | nil => intro acc no _; rfl
  | cons t rest ih =>
    intro acc no h
    have ht : trimAscii t = [] := h t (by simp)
    unfold parseRangeLoop
    simp only [ht, List.isEmpty_nil, if_true]
    exact ih acc no (fun tok htok => h tok (by simp [htok]))

/-- C3 as amended: a Range header that starts with the range-unit marker and
whose comma-separated entries are all empty parses to the empty range list
with no error (the Empty outcome, leading to full-body delivery), not to a
Malformed outcome. -/
theorem parseRange_empty_entries (s : List Char) (size : Int)
    (hpre : bytesEq.isPrefixOf s = true)
    (hall : ∀ tok ∈ (s.drop 6).splitOn ',', trimAscii tok = []) :
    parseRange s size = .ok [] := by
  have hne : s.isEmpty = false := by
    obtain ⟨u, hu⟩ := List.isPrefixOf_iff_prefix.mp hpre
    rw [← hu]
    rfl
  unfold parseRange
  rw [hne, hpre]
  simp only [Bool.false_eq_true, if_false, Bool.not_true, Bool.false_eq_true]
  rw [parseRangeLoop_all_empty size _ [] false hall]
  rfl

/-- Witness for the amended C3 at a header of empty entries. -/
theorem parseRange_empty_entries_witness :
    parseRange ("bytes=,,".data) 10 = .ok [] :=
  parseRange_empty_entries ("bytes=,,".data) 10 (by decide) (by decide)

/-- Every range the parseRange loop accepts satisfies the range
invariant, provided the accumulator already does. -/
theorem parseRangeLoop_inv (size : Int) (hsz : 0 ≤ size) :
    ∀ (toks : List (List Char)) (acc : List httpRange) (no : Bool)
      (out : List httpRange) (no2 : Bool),
      parseRangeLoop size toks acc no = .ok (out, no2) →
      (∀ r ∈ acc, rangeInv size r) →
      ∀ r ∈ out, rangeInv size r := by
  intro toks
  induction toks with
  | nil =>
    intro acc no out no2 h hacc
    unfold parseRangeLoop at h
    simp only [Except.ok.injEq, Prod.mk.injEq] at h
    obtain ⟨h1, _⟩ := h
    subst h1
    exact hacc
  | cons t rest ih =>
    intro acc no out no2 h hacc
    unfold parseRangeLoop at h
    simp only [] at h
    by_cases hemp : (trimAscii t).isEmpty = true
    · rw [if_pos hemp] at h
      exact ih acc no out no2 h hacc
    · rw [if_neg hemp] at h
      cases hcut : cutDash (trimAscii t) with
      | none => rw [hcut] at h; simp at h
      | some p =>
        obtain ⟨s0, e0⟩ := p
        rw [hcut] at h
        simp only [] at h
        by_cases hstart : (trimAscii s0).isEmpty = true
        · rw [if_pos hstart] at h
          by_cases hend : ((trimAscii e0).isEmpty || (trimAscii e0).head? == some '-') = true
          · rw [if_pos hend] at h
            simp at h
          · rw [if_neg hend] at h
            cases hpi : goParseInt64 (trimAscii e0) with
            | none => rw [hpi] at h; simp at h
            | some i =>
              rw [hpi] at h
              simp only [] at h
              by_cases hneg : i < 0
              · rw [if_pos hneg] at h
                simp at h
              · rw [if_neg hneg] at h
                refine ih _ no out no2 h ?_
                intro r hr
                rcases List.mem_append.mp hr with hr | hr
                · exact hacc r hr
                · rw [List.mem_singleton.mp hr]
                  unfold rangeInv
                  by_cases hclamp : i > size
                  · rw [if_pos hclamp]
                    simp only []
                    omega
                  · rw [if_neg hclamp]
                    simp only []
                    omega
        · rw [if_neg hstart] at h
          cases hpi : goParseInt64 (trimAscii s0) with
          | none => rw [hpi] at h; simp at h
          | some i =>
            rw [hpi] at h
            simp only [] at h
            by_cases hneg : i < 0
            · rw [if_pos hneg] at h
              simp at h
            · rw [if_neg hneg] at h
              by_cases hover : size ≤ i
              · rw [if_pos hover] at h
                exact ih acc true out no2 h hacc
              · rw [if_neg hover] at h
                by_cases hend : (trimAscii e0).isEmpty = true
                · rw [if_pos hend] at h
                  refine ih _ no out no2 h ?_
                  intro r hr
                  rcases List.mem_append.mp hr with hr | hr
                  · exact hacc r hr
                  · rw [List.mem_singleton.mp hr]
                    unfold rangeInv
                    simp only []
                    omega
                · rw [if_neg hend] at h
                  cases hpj : goParseInt64 (trimAscii e0) with
                  | none => rw [hpj] at h; simp at h
                  | some j =>
                    rw [hpj] at h
                    simp only [] at h
                    by_cases hij : i > j
                    · rw [if_pos hij] at h
                      simp at h
                    · rw [if_neg hij] at h
                      refine ih _ no out no2 h ?_
                      intro r hr
                      rcases List.mem_append.mp hr with hr | hr
                      · exact hacc r hr
                      · rw [List.mem_singleton.mp hr]
                        unfold rangeInv
                        by_cases hclamp : size ≤ j
                        · rw [if_pos hclamp]
                          simp only []
                          omega
                        · rw [if_neg hclamp]
                          simp only []
                          omega

/-- C4 as amended: every range of a successful parse has non-negative start
and length, ends within the resource, and starts strictly inside the
resource whenever its length is positive (a zero-length suffix range may
start at the very end, start equal to size). -/
theorem parseRange_ok_inv (s : List Char) (size : Int) (rs : List httpRange)
    (hsz : 0 ≤ size) (hok : parseRange s size = .ok rs) :
    ∀ r ∈ rs, rangeInv size r := by
  unfold parseRange at hok
  by_cases h1 : s.isEmpty = true
  · rw [if_pos h1] at hok
    simp only [Except.ok.injEq] at hok
    subst hok
    intro r hr
    simp at hr
  · rw [if_neg h1] at hok
    by_cases h2 : (!(bytesEq.isPrefixOf s)) = true
    · rw [if_pos h2] at hok
      simp at hok
    · rw [if_neg h2] at hok
      cases hp : parseRangeLoop size ((s.drop 6).splitOn ',') [] false with
      | error e => rw [hp] at hok; simp at hok
      | ok p =>
        obtain ⟨ranges, no⟩ := p
        rw [hp] at hok
        simp only [] at hok
        by_cases h3 : (no && ranges.isEmpty) = true
        · rw [if_pos h3] at hok
          simp at hok
        · rw [if_neg h3] at hok
          simp only [Except.ok.injEq] at hok
          subst hok
          exact parseRangeLoop_inv size hsz _ [] false _ _ hp (by intro r hr; simp at hr)

/-- Counterexample to C4 as stated: the suffix range of zero bytes parses
successfully to the single range with start equal to the full size and
length zero, which does not lie inside the half-open interval from zero to
size. -/
theorem c4_counterexample :
    ¬ (∀ (s : List Char) (size : Int) (rs : List httpRange),
        0 ≤ size → parseRange s size = .ok rs →
        ∀ r ∈ rs, 0 ≤ r.start ∧ 0 ≤ r.length ∧ r.start + r.length ≤ size ∧
          r.start < size) := by
  intro hclaim
  have h := hclaim ("bytes=-0".data) 10 [⟨10, 0⟩] (by decide) (by decide)
      ⟨10, 0⟩ (by simp)
  exact absurd h.2.2.2 (by decide)

/-- Witness for the amended C4 at the parse of a one-byte range. -/
theorem parseRange_ok_inv_witness :
    rangeInv 10 ⟨0, 1⟩ :=
  parseRange_ok_inv ("bytes=0-0".data) 10 [⟨0, 1⟩] (by decide) (by decide)
    ⟨0, 1⟩ (by simp)

theorem digit_ne (c : Char) (h : isDigitChar c = true) (d : Char)
    (hd : d.toNat < 48 ∨ 57 < d.toNat) : (c == d) = false := by
  have h' := of_decide_eq_true h
  refine beq_eq_false_iff_ne.mpr ?_
  intro he
  subst he
  omega

theorem isWS_of_digit (c : Char) (h : isDigitChar c = true) : isWS c = false := by
  unfold isWS
  rw [digit_ne c h ' ' (by decide), digit_ne c h '\t' (by decide),
    digit_ne c h '\n' (by decide), digit_ne c h '\r' (by decide)]
  rfl

theorem dropWhile_isWS_eq_self (l : List Char) (h : ∀ c ∈ l, isWS c = false) :
    l.dropWhile isWS = l := by
  cases l with
  | nil => rfl
  | cons c t =>
    rw [List.dropWhile_cons, if_neg]
    simp [h c (List.mem_cons_self c t)]

theorem trimAscii_eq_self (l : List Char) (h : ∀ c ∈ l, isWS c = false) :
    trimAscii l = l := by
  unfold trimAscii
  rw [dropWhile_isWS_eq_self l h,
    dropWhile_isWS_eq_self l.reverse (fun c hc => h c (List.mem_reverse.mp hc)),
    List.reverse_reverse]

theorem splitOn_comma_single (l : List Char) (h : (',' : Char) ∉ l) :
    l.splitOn ',' = [l] := by
  unfold List.splitOn
  refine List.splitOnP_eq_single _ _ ?_
  intro x hx hbeq
  have hxe : x = ',' := eq_of_beq hbeq
  rw [hxe] at hx
  exact h hx

theorem goParseInt64_digits (l : List Char) (hne : l ≠ [])
    (hd : ∀ c ∈ l, isDigitChar c = true) (hmax : digitsVal l ≤ int64Max) :
    goParseInt64 l = some (Int.ofNat (digitsVal l)) := by
  cases l with
  | nil => exact absurd rfl hne
  | cons c rest =>
    have hc := hd c (List.mem_cons_self c rest)
    have hplus : (c == '+') = false := digit_ne c hc '+' (by decide)
    have hminus : (c == '-') = false := digit_ne c hc '-' (by decide)
    have hall : (c :: rest).all isDigitChar = true := List.all_eq_true.mpr hd
    unfold goParseInt64
    simp only [hplus, hminus, Bool.or_self, Bool.or_false, if_false, hall,
      Bool.not_true, List.isEmpty_cons, Bool.false_or, Bool.false_eq_true,
      if_pos hmax]

/-- C5: concrete parses of the four sample headers against a ten-byte
resource, the 416 outcome with its Content-Range value for the
non-overlapping bounded range, and the general clamp: a suffix range whose
decimal count exceeds the size (any digit string worth more than size yet
within int64) parses to the whole resource. -/
theorem c5_range_parsing (size : Int) (ds : List Char)
    (hsz : 0 ≤ size) (hne : ds ≠ [])
    (hdig : ∀ c ∈ ds, isDigitChar c = true)
    (hbig : size < Int.ofNat (digitsVal ds))
    (hmax : digitsVal ds ≤ int64Max) :
    parseRange ("bytes=0-0".data) 10 = .ok [⟨0, 1⟩] ∧
    parseRange ("bytes=-5".data) 10 = .ok [⟨5, 5⟩] ∧
    parseRange ("bytes=5-".data) 10 = .ok [⟨5, 5⟩] ∧
    parseRange ("bytes=20-30".data) 10 = .error .noOverlap ∧
    resolveRanges ("bytes=20-30".data) 10 [] [] =
      .errUnsatisfiable ("bytes */10".data) 416 ∧
    parseRange (bytesEq ++ '-' :: ds) size = .ok [⟨0, size⟩] := by
  refine ⟨by decide, by decide, by decide, by decide, by decide, ?_⟩
  have hnws : ∀ c ∈ ('-' :: ds), isWS c = false := by
    intro c hc
    rcases List.mem_cons.mp hc with he | hm
    · rw [he]
      rfl
    · exact isWS_of_digit c (hdig c hm)
  have hsne : (bytesEq ++ '-' :: ds).isEmpty = false := by
    simp [bytesEq]
  have hpre : bytesEq.isPrefixOf (bytesEq ++ '-' :: ds) = true :=
    List.isPrefixOf_iff_prefix.mpr (List.prefix_append _ _)
  have hdrop : (bytesEq ++ '-' :: ds).drop 6 = '-' :: ds := by
    rw [show (6 : Nat) = bytesEq.length from rfl]
    exact List.drop_left _ _
  have hsplit : ('-' :: ds).splitOn ',' = ['-' :: ds] := by
    refine splitOn_comma_single _ ?_
    intro hmem
    rcases List.mem_cons.mp hmem with he | hm
    · exact absurd he (by decide)
    · exact absurd (hdig ',' hm) (by decide)
  have htrim : trimAscii ('-' :: ds) = '-' :: ds := trimAscii_eq_self _ hnws
  have htds : trimAscii ds = ds :=
    trimAscii_eq_self _ (fun c hc => isWS_of_digit c (hdig c hc))
  have hcut : cutDash ('-' :: ds) = some ([], ds) := by
    unfold cutDash
    rfl
  obtain ⟨d, ds2, hds⟩ : ∃ d ds2, ds = d :: ds2 := by
    cases ds with
    | nil => exact absurd rfl hne
    | cons d ds2 => exact ⟨d, ds2, rfl⟩
  have hhead : (ds.head? == some '-') = false := by
    rw [hds]
    simp only [List.head?_cons]
    have := digit_ne d (hdig d (by rw [hds]; exact List.mem_cons_self d ds2)) '-' (by decide)
    simp [this]
  have hdsne : ds.isEmpty = false := by
    rw [hds]
    rfl
  have hparse := goParseInt64_digits ds hne hdig hmax
  unfold parseRange
  rw [hsne, hpre]
  simp only [Bool.false_eq_true, if_false, Bool.not_true]
  rw [hdrop, hsplit]
  unfold parseRangeLoop
  rw [htrim]
  simp only [List.isEmpty_cons, Bool.false_eq_true, if_false, hcut]
  have htrimnil : trimAscii ([] : List Char) = [] := rfl
  rw [htrimnil]
  simp only [List.isEmpty_nil, if_true, htds, hdsne, hhead, Bool.or_self,
    Bool.false_eq_true, if_false, hparse]
  have hneg : ¬ (Int.ofNat (digitsVal ds) < 0) := by
    omega
  rw [if_neg hneg, if_pos (by omega : Int.ofNat (digitsVal ds) > size)]
  have hfin : parseRangeLoop size [] ([] ++ [⟨size - size, size - (size - size)⟩]) false
      = .ok ([⟨size - size, size - (size - size)⟩], false) := rfl
  rw [hfin]
  simp only [List.nil_append, Bool.false_and, Bool.false_eq_true, if_false,
    Except.ok.injEq, List.cons.injEq, and_true, httpRange.mk.injEq]
  exact ⟨by omega, by omega⟩

/-- Witness for C5, with the clamped suffix count one thousand against the
ten-byte resource. -/
theorem c5_range_parsing_witness :
    parseRange ("bytes=0-0".data) 10 = .ok [⟨0, 1⟩] ∧
    parseRange ("bytes=-5".data) 10 = .ok [⟨5, 5⟩] ∧
    parseRange ("bytes=5-".data) 10 = .ok [⟨5, 5⟩] ∧
    parseRange ("bytes=20-30".data) 10 = .error .noOverlap ∧
    resolveRanges ("bytes=20-30".data) 10 [] [] =
      .errUnsatisfiable ("bytes */10".data) 416 ∧
    parseRange (bytesEq ++ '-' :: ("1000".data)) 10 = .ok [⟨0, 10⟩] :=
  c5_range_parsing 10 ("1000".data) (by decide) (by decide) (by decide)
    (by decide) (by decide)

/-- C7: when a parse succeeds but the summed length of the accepted ranges
exceeds the resource size, the delivery decision discards every range and
serves the full body, status 200, with the whole size as the transmitted
length. -/
theorem c7_sum_guard (s : List Char) (size : Int) (ctype boundary : List Char)
    (rs : List httpRange) (hsz : 0 ≤ size)
    (hok : parseRange s size = .ok rs)
    (hsum : sumRangesSize rs > size) :
    resolveRanges s size ctype boundary = .full size 200 := by
  unfold resolveRanges
  rw [if_neg (by omega), hok]
  simp only [if_pos hsum]

/-- Witness for C7 at two full-resource ranges against a ten-byte
resource. -/
theorem c7_sum_guard_witness :
    resolveRanges ("bytes=0-9,0-9".data) 10 [] [] = .full 10 200 :=
  c7_sum_guard ("bytes=0-9,0-9".data) 10 [] [] [⟨0, 10⟩, ⟨0, 10⟩]
    (by decide) (by decide) (by decide)

theorem foldl_add_init (rs : List httpRange) :
    ∀ a : Int, rs.foldl (fun acc r => acc + r.length) a
      = a + rs.foldl (fun acc r => acc + r.length) 0 := by
  induction rs with
  | nil =>
    intro a
    simp
  | cons r t ih =>
    intro a
    simp only [List.foldl_cons]
    rw [ih (a + r.length), ih (0 + r.length)]
    ring

theorem sumRangesSize_cons (r : httpRange) (rs : List httpRange) :
    sumRangesSize (r :: rs) = r.length + sumRangesSize rs := by
  unfold sumRangesSize
  simp only [List.foldl_cons]
  rw [foldl_add_init rs (0 + r.length)]
  ring

/-- The streamed multipart body is exactly as long as the dry-run byte
count plus the summed range lengths, for any two boundaries of equal
length. -/
theorem multipartStream_length (b1 b2 ctype : List Char) (size : Int)
    (content : List Char) (hb : b1.length = b2.length)
    (hsize : size = (content.length : Int)) :
    ∀ (rs : List httpRange) (first : Bool),
      (∀ r ∈ rs, 0 ≤ r.start ∧ 0 ≤ r.length ∧ r.start + r.length ≤ size) →
      ((multipartStream b2 ctype size content rs first).length : Int)
        = rangesMIMESizeLoop b1 ctype size rs first + sumRangesSize rs := by
  intro rs
  induction rs with
  | nil =>
    intro first _
    unfold multipartStream rangesMIMESizeLoop sumRangesSize
    simp only [List.foldl_nil, add_zero]
    unfold closeDelim
    simp [List.length_append, hb]
  | cons r t ih =>
    intro first h
    have hr := h r (List.mem_cons_self r t)
    have ihh := ih false (fun x hx => h x (List.mem_cons_of_mem r hx))
    have hslice : ((content.drop r.start.toNat).take r.length.toNat).length
        = r.length.toNat := by
      rw [List.length_take, List.length_drop]
      omega
    have hpart : (partHeaderBytes b2 first (mimeHeaderBytes r ctype size)).length
        = (partHeaderBytes b1 first (mimeHeaderBytes r ctype size)).length := by
      unfold partHeaderBytes
      cases first <;> simp [List.length_append, hb]
    unfold multipartStream rangesMIMESizeLoop
    rw [sumRangesSize_cons]
    simp only [List.length_append, hslice]
    omega

/-- C8: for a multi-range response the transmitted size computed before any
byte is written, rangesMIMESize with the boundary the dry-run writer
generates, equals the exact number of body bytes the streaming multipart
writer produces with its own boundary of the same length, trailing boundary
included. -/
theorem rangesMIMESize_matches_body (b1 b2 ctype content : List Char)
    (size : Int) (ranges : List httpRange)
    (hb : b1.length = b2.length)
    (hsize : size = (content.length : Int))
    (hrs : ∀ r ∈ ranges, 0 ≤ r.start ∧ 0 ≤ r.length ∧ r.start + r.length ≤ size)
    (hmulti : 2 ≤ ranges.length) :
    ((multipartBody b2 ctype size content ranges).length : Int)
      = rangesMIMESize ranges ctype size b1 := by
  unfold multipartBody rangesMIMESize
  exact multipartStream_length b1 b2 ctype size content hb hsize ranges true hrs

/-- Witness for C8 on the two sample ranges of a ten-byte text resource. -/
theorem rangesMIMESize_matches_body_witness :
    ((multipartBody ("bbbb".data) ("text/plain".data) 10
        ("0123456789".data) [⟨0, 2⟩, ⟨4, 2⟩]).length : Int)
      = rangesMIMESize [⟨0, 2⟩, ⟨4, 2⟩] ("text/plain".data) 10 ("aaaa".data) :=
  rangesMIMESize_matches_body ("aaaa".data) ("bbbb".data) ("text/plain".data)
    ("0123456789".data) 10 [⟨0, 2⟩, ⟨4, 2⟩] (by decide) (by decide) (by decide)
    (by decide)

theorem lookupVals_hDelete_self (h : Header) (k : String) :
    lookupVals (hDelete h k) k = [] := by
  induction h with
  | nil => rfl
  | cons p t ih =>
    unfold hDelete lookupVals
    unfold hDelete lookupVals at ih
    by_cases hp : (p.1 == k) = true
    · simp only [List.filter_cons, hp, Bool.not_true, Bool.false_eq_true, if_false]
      exact ih
    · simp only [List.filter_cons, hp, Bool.not_false, if_true, Bool.false_eq_true,
        if_false]
      exact ih

theorem lookupVals_hDelete_ne (h : Header) (k k' : String) (hne : k' ≠ k) :
    lookupVals (hDelete h k) k' = lookupVals h k' := by
  induction h with
  | nil => rfl
  | cons p t ih =>
    unfold hDelete lookupVals
    unfold hDelete lookupVals at ih
    by_cases hp : (p.1 == k) = true
    · have hpk : p.1 = k := eq_of_beq hp
      have hpk' : (p.1 == k') = false := by
        refine beq_eq_false_iff_ne.mpr ?_
        rw [hpk]
        exact fun he => hne he.symm
      simp only [List.filter_cons, hp, Bool.not_true, Bool.false_eq_true, if_false,
        hpk']
      exact ih
    · by_cases hq : (p.1 == k') = true
      · simp only [List.filter_cons, hp, Bool.not_false, if_true, hq,
          List.cons.injEq, true_and]
        exact ih
      · simp only [List.filter_cons, hp, Bool.not_false, if_true, hq,
          Bool.false_eq_true, if_false]
        exact ih

theorem hGetFirst_hDelete_ne (h : Header) (k k' : String) (hne : k' ≠ k) :
    hGetFirst (hDelete h k) k' = hGetFirst h k' := by
  induction h with
  | nil => rfl
  | cons p t ih =>
    unfold hDelete hGetFirst
    unfold hDelete hGetFirst at ih
    by_cases hp : (p.1 == k) = true
    · have hpk : p.1 = k := eq_of_beq hp
      have hpk' : (p.1 == k') = false := by
        refine beq_eq_false_iff_ne.mpr ?_
        rw [hpk]
        exact fun he => hne he.symm
      simp only [List.filter_cons, hp, Bool.not_true, Bool.false_eq_true, if_false,
        List.find?_cons, hpk']
      exact ih
    · by_cases hq : (p.1 == k') = true
      · simp only [List.filter_cons, hp, Bool.not_false, if_true, List.find?_cons, hq]
      · simp only [List.filter_cons, hp, Bool.not_false, if_true, List.find?_cons, hq]
        exact ih

/-- Counterexample to C9 as stated: with an Etag header present but holding
the empty string, writeNotModified leaves Last-Modified in place (the code
tests the first Etag value against the empty string, not mere presence of
the header). -/
theorem c9_counterexample :
    lookupVals emptyEtagHeaders etagKey ≠ [] ∧
    lookupVals emptyEtagHeaders lmKey ≠ [] ∧
    (writeNotModified emptyEtagHeaders).headers = emptyEtagHeaders ∧
    lookupVals (writeNotModified emptyEtagHeaders).headers lmKey ≠ [] := by
  exact ⟨by decide, by decide, by decide, by decide⟩

/-- C9 as amended: writing the 304 sets status 304 with no body, removes
exactly the Content-Type, Content-Length and Content-Encoding entries,
removes Last-Modified precisely when the Etag header carries a non-empty
first value (and leaves it untouched otherwise), and leaves every other
header unchanged. -/
theorem writeNotModified_spec (h : Header) :
    (writeNotModified h).status = 304 ∧
    (writeNotModified h).body = [] ∧
    lookupVals (writeNotModified h).headers ctKey = [] ∧
    lookupVals (writeNotModified h).headers clKey = [] ∧
    lookupVals (writeNotModified h).headers ceKey = [] ∧
    (hGetFirst h etagKey ≠ "" → lookupVals (writeNotModified h).headers lmKey = []) ∧
    (hGetFirst h etagKey = "" →
      lookupVals (writeNotModified h).headers lmKey = lookupVals h lmKey) ∧
    (∀ k, k ≠ ctKey → k ≠ clKey → k ≠ ceKey → k ≠ lmKey →
      lookupVals (writeNotModified h).headers k = lookupVals h k) := by
  unfold writeNotModified
  simp only []
  have hget : hGetFirst (hDelete (hDelete (hDelete h ctKey) clKey) ceKey) etagKey
      = hGetFirst h etagKey := by
    rw [hGetFirst_hDelete_ne _ ceKey etagKey (by decide),
      hGetFirst_hDelete_ne _ clKey etagKey (by decide),
      hGetFirst_hDelete_ne _ ctKey etagKey (by decide)]
  rw [hget]
  by_cases hc : hGetFirst h etagKey = ""
  · rw [if_neg (fun hcon => hcon hc)]
    refine ⟨trivial, trivial, ?_, ?_, ?_, ?_, ?_, ?_⟩
    · rw [lookupVals_hDelete_ne _ ceKey ctKey (by decide),
        lookupVals_hDelete_ne _ clKey ctKey (by decide),
        lookupVals_hDelete_self]
    · rw [lookupVals_hDelete_ne _ ceKey clKey (by decide),
        lookupVals_hDelete_self]
    · rw [lookupVals_hDelete_self]
    · exact fun hne => absurd hc hne
    · intro _
      rw [lookupVals_hDelete_ne _ ceKey lmKey (by decide),
        lookupVals_hDelete_ne _ clKey lmKey (by decide),
        lookupVals_hDelete_ne _ ctKey lmKey (by decide)]
    · intro k hk1 hk2 hk3 _
      rw [lookupVals_hDelete_ne _ ceKey k hk3,
        lookupVals_hDelete_ne _ clKey k hk2,
        lookupVals_hDelete_ne _ ctKey k hk1]
  · rw [if_pos hc]
    refine ⟨trivial, trivial, ?_, ?_, ?_, ?_, ?_, ?_⟩
    · rw [lookupVals_hDelete_ne _ lmKey ctKey (by decide),
        lookupVals_hDelete_ne _ ceKey ctKey (by decide),
        lookupVals_hDelete_ne _ clKey ctKey (by decide),
        lookupVals_hDelete_self]
    · rw [lookupVals_hDelete_ne _ lmKey clKey (by decide),
        lookupVals_hDelete_ne _ ceKey clKey (by decide),
        lookupVals_hDelete_self]
    · rw [lookupVals_hDelete_ne _ lmKey ceKey (by decide),
        lookupVals_hDelete_self]
    · intro _
      rw [lookupVals_hDelete_self]
    · exact fun he => absurd he hc
    · intro k hk1 hk2 hk3 hk4
      rw [lookupVals_hDelete_ne _ lmKey k hk4,
        lookupVals_hDelete_ne _ ceKey k hk3,
        lookupVals_hDelete_ne _ clKey k hk2,
        lookupVals_hDelete_ne _ ctKey k hk1]

/-- Witness for the amended C9 on a header state with a strong Etag, a
Last-Modified entry and an unrelated header. -/
theorem writeNotModified_spec_witness :
    (writeNotModified sampleHeaders).status = 304 ∧
    lookupVals (writeNotModified sampleHeaders).headers lmKey = [] ∧
    lookupVals (writeNotModified sampleHeaders).headers xOtherKey
      = lookupVals sampleHeaders xOtherKey :=
  ⟨(writeNotModified_spec sampleHeaders).1,
    (writeNotModified_spec sampleHeaders).2.2.2.2.2.1 (by decide),
    (writeNotModified_spec sampleHeaders).2.2.2.2.2.2.2 xOtherKey (by decide)
      (by decide) (by decide) (by decide)⟩
